import Mathlib

/-!
Shallow embedding of the distributed self-clearing alarm primitive:
the pulse API (src/helper/redis_utility.py, `alarm_pulse`) and the reset
worker sweep (src/watcher/alarm_reset_worker.py, `reset_loop`).

Modelling choices:
* Wall-clock times and sorted-set scores (Python floats) are modelled as
  rationals; `time.time()` becomes an explicit `now : Rat` argument.
* A Redis string value is either the decimal rendering of a float
  (`PyValue.float q`, the result of Python `str(due)`) or some other,
  non-numeric string (`PyValue.other s`); `pyFloat` models the
  `float(token)` parse guarded by `try/except ValueError`.
* The store holds hash maps (namespace-scoped 0/1 flags), plain string
  keys (tokens) and sorted sets as association lists of (member, score).
* A `pipeline(transaction=True) ... execute()` batch is one composite
  state transformer, so the batch is indivisible by construction.
-/

namespace AlarmPulse

/-- A Redis string value as this system distinguishes them: the string
rendering of a float (written by `str(due)` in `alarm_pulse`, parsed back
by `float(token)` in the worker), or any other string, which fails the
numeric parse. -/
inductive PyValue where
  | float (q : ℚ)
  | other (s : String)
deriving DecidableEq, Repr

/-- Models `float(token)` under `try/except ValueError`: the rendering of
a float parses back exactly; any other string raises, i.e. yields none. -/
def pyFloat : PyValue → Option ℚ
  | .float q => some q
  | .other _ => none

/-- The Redis state visible to this subsystem: hashes of integer flag
fields, plain string keys, and named sorted sets kept as association
lists of (member, score). -/
structure RedisState where
  hashes : String → String → Option Int
  strings : String → Option PyValue
  zsets : String → List (String × ℚ)

/-- `HSET h f v`. -/
def RedisState.hset (st : RedisState) (h f : String) (v : Int) : RedisState :=
  { st with hashes := fun h' f' => if h' = h ∧ f' = f then some v else st.hashes h' f' }

/-- `HGET h f` (the flag read used by external consumers). -/
def RedisState.hget (st : RedisState) (h f : String) : Option Int :=
  st.hashes h f

/-- `SET k v`. -/
def RedisState.setStr (st : RedisState) (k : String) (v : PyValue) : RedisState :=
  { st with strings := fun k' => if k' = k then some v else st.strings k' }

/-- `GET k`. -/
def RedisState.get (st : RedisState) (k : String) : Option PyValue :=
  st.strings k

/-- `DEL k`. -/
def RedisState.del (st : RedisState) (k : String) : RedisState :=
  { st with strings := fun k' => if k' = k then none else st.strings k' }

/-- `ZADD z {member: score}`: upsert, overwriting any previous score for
the member. -/
def RedisState.zadd (st : RedisState) (z member : String) (score : ℚ) : RedisState :=
  { st with zsets := fun z' =>
      if z' = z then (member, score) :: (st.zsets z).filter (fun p => p.1 ≠ member)
      else st.zsets z' }

/-- `ZREM z member`. -/
def RedisState.zrem (st : RedisState) (z member : String) : RedisState :=
  { st with zsets := fun z' =>
      if z' = z then (st.zsets z).filter (fun p => p.1 ≠ member)
      else st.zsets z' }

/-- `ZSCORE z member`. -/
def RedisState.zscore (st : RedisState) (z member : String) : Option ℚ :=
  ((st.zsets z).find? (fun p => p.1 = member)).map Prod.snd

/-- Sorted-set order: ascending score, ties by member string. -/
def scoreLe (p q : String × ℚ) : Bool :=
  p.2 < q.2 ∨ (p.2 = q.2 ∧ p.1 ≤ q.1)

/-- Insertion into a score-sorted list. -/
def insertSorted (p : String × ℚ) : List (String × ℚ) → List (String × ℚ)
  | [] => [p]
  | q :: rest => if scoreLe p q then p :: q :: rest else q :: insertSorted p rest

/-- The score order Redis maintains on a sorted set. -/
def sortByScore : List (String × ℚ) → List (String × ℚ)
  | [] => []
  | p :: rest => insertSorted p (sortByScore rest)

/-- `ZRANGEBYSCORE z -inf maxScore LIMIT 0 num`: up to `num` members with
score at most `maxScore`, smallest scores first. -/
def RedisState.zrangebyscore (st : RedisState) (z : String) (maxScore : ℚ) (num : ℕ) :
    List String :=
  ((((sortByScore (st.zsets z)).filter (fun p => p.2 ≤ maxScore)).take num).map Prod.fst)

/-- `DUE_ZSET = "alarm:pulse_due"` from redis_utility.py. -/
def DUE_ZSET : String := "alarm:pulse_due"

/-- `TOKEN_PREFIX = "alarm:pulse_token:"` from redis_utility.py. -/
def TOKEN_PREFIX : String := "alarm:pulse_token:"

/-- The token key `f"{TOKEN_PREFIX}{redis_hash}|{redis_key}"` written by
`alarm_pulse`. -/
def pulse_token_key (redis_hash redis_key : String) : String :=
  TOKEN_PREFIX ++ redis_hash ++ "|" ++ redis_key

/-- The default `duration_sec = 22` of `alarm_pulse`. -/
def default_duration_sec : ℚ := 22

/-- `alarm_pulse(redis_db, redis_hash, redis_key, duration_sec)`: sets the
flag to 1, the token to `str(due)` and the due-index score to `due`, in a
single transactional pipeline (one composite update here). `now` stands
for `time.time()` at the call. -/
def alarm_pulse (st : RedisState) (now : ℚ) (redis_hash redis_key : String)
    (duration_sec : ℚ) : RedisState :=
  let due := now + duration_sec
  let member := redis_hash ++ "|" ++ redis_key
  let token_key := pulse_token_key redis_hash redis_key
  (((st.hset redis_hash redis_key 1).setStr token_key (PyValue.float due)).zadd
    DUE_ZSET member due)

/-- Helper for `member.split("|", 1)` unpacked into two names: splits a
character list at the first separator, or fails (the ValueError) when no
separator occurs. -/
def splitOnceAux : List Char → Option (List Char × List Char)
  | [] => none
  | c :: rest =>
    if c = '|' then some ([], rest)
    else
      match splitOnceAux rest with
      | some (a, b) => some (c :: a, b)
      | none => none

/-- `redis_hash, redis_key = member.split("|", 1)`: some (hash, field)
when the member holds a separator, none when the unpacking raises. -/
def splitMember (s : String) : Option (String × String) :=
  (splitOnceAux s.data).map (fun p => (String.mk p.1, String.mk p.2))

/-- The body of the per-member `for` loop of `reset_loop`
(src/watcher/alarm_reset_worker.py): one sweep step on one candidate
member, with `tokenPref` the configured token-key prefix. -/
def reset_step (st : RedisState) (due_zset tokenPref member : String) : RedisState :=
  match splitMember member with
  | none => st.zrem due_zset member
  | some (redis_hash, redis_key) =>
    let token_key := tokenPref ++ redis_hash ++ "|" ++ redis_key
    match st.zscore due_zset member with
    | none => st
    | some score =>
      match st.get token_key with
      | none => (st.hset redis_hash redis_key 0).zrem due_zset member
      | some token =>
        match pyFloat token with
        | some latest_due =>
          if |latest_due - score| < 1/1000 then
            (((st.hset redis_hash redis_key 0).zrem due_zset member).del token_key)
          else
            st.zrem due_zset member
        | none => st.zrem due_zset member

/-- The `for member in members` loop of `reset_loop`: sweep the candidate
batch in order. -/
def reset_sweep (st : RedisState) (due_zset tokenPref : String) :
    List String → RedisState
  | [] => st
  | m :: rest => reset_sweep (reset_step st due_zset tokenPref m) due_zset tokenPref rest

/-- The default `poll_interval = 0.2` of `reset_loop`. -/
def default_poll_interval : ℚ := 0.2

/-- The default `batch = 200` of `reset_loop`. -/
def default_batch : ℕ := 200

/-- One iteration of the `while True` loop of `reset_loop`: query the due
index for up to `batch` members with score at most `now`; when empty,
sleep `poll_interval` and loop (returned as `some poll_interval`); when
non-empty, sweep the batch and loop immediately (returned as `none`). -/
def reset_iter (st : RedisState) (now : ℚ) (due_zset tokenPref : String)
    (poll_interval : ℚ) (batch : ℕ) : RedisState × Option ℚ :=
  let members := st.zrangebyscore due_zset now batch
  if members.isEmpty then (st, some poll_interval)
  else (reset_sweep st due_zset tokenPref members, none)

/-- A sequence of pulses on one member: each element is
(`now` at that pulse, its `duration_sec`), applied oldest first. -/
def pulseSeq (st : RedisState) (redis_hash redis_key : String) :
    List (ℚ × ℚ) → RedisState
  | [] => st
  | nd :: rest => pulseSeq (alarm_pulse st nd.1 redis_hash redis_key nd.2) redis_hash redis_key rest

/-- How many entries the due index holds for one member. -/
def entryCount (st : RedisState) (z member : String) : ℕ :=
  ((st.zsets z).filter (fun p => p.1 = member)).length

/-- The intended invariant of section 3 of the design: whenever a
due-index entry exists for a member, the token for that member holds the
string encoding of the same due time. -/
def TokenInvariant (st : RedisState) : Prop :=
  ∀ m s, st.zscore DUE_ZSET m = some s →
    st.get (TOKEN_PREFIX ++ m) = some (PyValue.float s)

/-! ### Point and frame lemmas for the store operations -/

theorem hget_hset_self (st : RedisState) (h f : String) (v : Int) :
    (st.hset h f v).hget h f = some v := by
  simp [RedisState.hset, RedisState.hget]

theorem hget_hset_other (st : RedisState) {h f h' f' : String} (v : Int)
    (hne : ¬(h' = h ∧ f' = f)) : (st.hset h f v).hget h' f' = st.hget h' f' := by
  simp [RedisState.hset, RedisState.hget, hne]

theorem hset_strings (st : RedisState) (h f : String) (v : Int) :
    (st.hset h f v).strings = st.strings := rfl

theorem hset_zsets (st : RedisState) (h f : String) (v : Int) :
    (st.hset h f v).zsets = st.zsets := rfl

theorem get_setStr_self (st : RedisState) (k : String) (v : PyValue) :
    (st.setStr k v).get k = some v := by
  simp [RedisState.setStr, RedisState.get]

theorem get_setStr_other (st : RedisState) {k k' : String} (v : PyValue)
    (hne : k' ≠ k) : (st.setStr k v).get k' = st.get k' := by
  simp [RedisState.setStr, RedisState.get, hne]

theorem setStr_hashes (st : RedisState) (k : String) (v : PyValue) :
    (st.setStr k v).hashes = st.hashes := rfl

theorem setStr_zsets (st : RedisState) (k : String) (v : PyValue) :
    (st.setStr k v).zsets = st.zsets := rfl

theorem get_del_self (st : RedisState) (k : String) : (st.del k).get k = none := by
  simp [RedisState.del, RedisState.get]

theorem get_del_other (st : RedisState) {k k' : String} (hne : k' ≠ k) :
    (st.del k).get k' = st.get k' := by
  simp [RedisState.del, RedisState.get, hne]

theorem del_hashes (st : RedisState) (k : String) : (st.del k).hashes = st.hashes := rfl

theorem del_zsets (st : RedisState) (k : String) : (st.del k).zsets = st.zsets := rfl

theorem zadd_hashes (st : RedisState) (z m : String) (s : ℚ) :
    (st.zadd z m s).hashes = st.hashes := rfl

theorem zadd_strings (st : RedisState) (z m : String) (s : ℚ) :
    (st.zadd z m s).strings = st.strings := rfl

theorem zrem_hashes (st : RedisState) (z m : String) :
    (st.zrem z m).hashes = st.hashes := rfl

theorem zrem_strings (st : RedisState) (z m : String) :
    (st.zrem z m).strings = st.strings := rfl

theorem find?_filter_ne_self (l : List (String × ℚ)) (m : String) :
    (l.filter (fun p => p.1 ≠ m)).find? (fun p => p.1 = m) = none := by
  rw [List.find?_eq_none]
  intro x hx
  rcases List.mem_filter.mp hx with ⟨-, hxne⟩
  simpa using of_decide_eq_true hxne

theorem find?_filter_ne_other (l : List (String × ℚ)) {m m' : String} (hne : m' ≠ m) :
    (l.filter (fun p => p.1 ≠ m)).find? (fun p => p.1 = m') =
      l.find? (fun p => p.1 = m') := by
  induction l with
  | nil => rfl
  | cons q rest ih =>
    rw [List.filter_cons]
    by_cases hqm : q.1 = m
    · have hd : (decide (q.1 ≠ m)) = false := by simp [hqm]
      rw [hd, if_neg (by simp), ih,
        List.find?_cons_of_neg _ (by simp [hqm, Ne.symm hne])]
    · have hd : (decide (q.1 ≠ m)) = true := by simp [hqm]
      rw [hd, if_pos rfl]
      by_cases hq : q.1 = m'
      · rw [List.find?_cons_of_pos _ (by simp [hq]),
          List.find?_cons_of_pos _ (by simp [hq])]
      · rw [List.find?_cons_of_neg _ (by simp [hq]),
          List.find?_cons_of_neg _ (by simp [hq]), ih]

theorem zscore_zadd_self (st : RedisState) (z m : String) (s : ℚ) :
    (st.zadd z m s).zscore z m = some s := by
  simp [RedisState.zadd, RedisState.zscore]

theorem zscore_zadd_other (st : RedisState) {z m m' : String} (s : ℚ) (hne : m' ≠ m) :
    (st.zadd z m s).zscore z m' = st.zscore z m' := by
  simp only [RedisState.zadd, RedisState.zscore, eq_self_iff_true, if_true]
  rw [List.find?_cons_of_neg _ (by simpa using Ne.symm hne), find?_filter_ne_other _ hne]

theorem zscore_zadd_zset_other (st : RedisState) {z z' : String} (m m' : String)
    (s : ℚ) (hz : z' ≠ z) : (st.zadd z m s).zscore z' m' = st.zscore z' m' := by
  simp [RedisState.zadd, RedisState.zscore, hz]

theorem zscore_zrem_self (st : RedisState) (z m : String) :
    (st.zrem z m).zscore z m = none := by
  simp only [RedisState.zrem, RedisState.zscore, eq_self_iff_true, if_true]
  rw [find?_filter_ne_self]
  rfl

theorem zscore_zrem_other (st : RedisState) {z m m' : String} (hne : m' ≠ m) :
    (st.zrem z m).zscore z m' = st.zscore z m' := by
  simp only [RedisState.zrem, RedisState.zscore, eq_self_iff_true, if_true]
  rw [find?_filter_ne_other _ hne]

theorem zscore_zrem_zset_other (st : RedisState) {z z' : String} (m m' : String)
    (hz : z' ≠ z) : (st.zrem z m).zscore z' m' = st.zscore z' m' := by
  simp [RedisState.zrem, RedisState.zscore, hz]

theorem zrem_zsets_other (st : RedisState) {z z' : String} (m : String) (hz : z' ≠ z) :
    (st.zrem z m).zsets z' = st.zsets z' := by
  simp [RedisState.zrem, hz]

/-! ### String append and member-encoding lemmas -/

theorem string_append_cancel_left {a b c : String} (h : a ++ b = a ++ c) : b = c := by
  apply String.ext
  have hd : a.data ++ b.data = a.data ++ c.data := by
    rw [← String.data_append, ← String.data_append, h]
  exact List.append_cancel_left hd

theorem splitOnceAux_no_sep {l : List Char} (h : '|' ∉ l) : splitOnceAux l = none := by
  induction l with
  | nil => rfl
  | cons c rest ih =>
    have hc : c ≠ '|' := fun hc => h (hc ▸ List.mem_cons_self c rest)
    have hrest : '|' ∉ rest := fun hr => h (List.mem_cons_of_mem c hr)
    simp [splitOnceAux, hc, ih hrest]

theorem splitOnceAux_encode {a : List Char} (b : List Char) (h : '|' ∉ a) :
    splitOnceAux (a ++ '|' :: b) = some (a, b) := by
  induction a with
  | nil => simp [splitOnceAux]
  | cons c rest ih =>
    have hc : c ≠ '|' := fun hc => h (hc ▸ List.mem_cons_self c rest)
    have hrest : '|' ∉ rest := fun hr => h (List.mem_cons_of_mem c hr)
    simp [splitOnceAux, hc, ih hrest]

theorem splitOnceAux_sound {l a b : List Char} (h : splitOnceAux l = some (a, b)) :
    l = a ++ '|' :: b := by
  induction l generalizing a b with
  | nil => simp [splitOnceAux] at h
  | cons c rest ih =>
    by_cases hc : c = '|'
    · simp [splitOnceAux, hc] at h
      simp [hc, ← h.1, ← h.2]
    · simp only [splitOnceAux, if_neg hc] at h
      cases hx : splitOnceAux rest with
      | none => rw [hx] at h; exact absurd h (by simp)
      | some p =>
        rw [hx] at h
        simp at h
        rcases h with ⟨ha, hb⟩
        rcases p with ⟨pa, pb⟩
        have := ih hx
        simp at ha hb
        subst hb
        rw [← ha]
        simp [this]

theorem data_append_sep (a b : String) :
    (a ++ "|" ++ b).data = a.data ++ '|' :: b.data := by
  simp [String.data_append]

theorem splitMember_encode {ns : String} (f : String) (h : '|' ∉ ns.data) :
    splitMember (ns ++ "|" ++ f) = some (ns, f) := by
  simp only [splitMember, data_append_sep, splitOnceAux_encode _ h, Option.map_some]
  rfl

theorem splitMember_no_sep {s : String} (h : '|' ∉ s.data) : splitMember s = none := by
  simp [splitMember, splitOnceAux_no_sep h]

theorem hget_setStr (st : RedisState) (k : String) (v : PyValue) (h f : String) :
    (st.setStr k v).hget h f = st.hget h f := rfl

theorem hget_zadd (st : RedisState) (z m : String) (s : ℚ) (h f : String) :
    (st.zadd z m s).hget h f = st.hget h f := rfl

theorem hget_zrem (st : RedisState) (z m : String) (h f : String) :
    (st.zrem z m).hget h f = st.hget h f := rfl

theorem hget_del (st : RedisState) (k : String) (h f : String) :
    (st.del k).hget h f = st.hget h f := rfl

theorem get_hset (st : RedisState) (h f : String) (v : Int) (k : String) :
    (st.hset h f v).get k = st.get k := rfl

theorem get_zadd (st : RedisState) (z m : String) (s : ℚ) (k : String) :
    (st.zadd z m s).get k = st.get k := rfl

theorem get_zrem (st : RedisState) (z m : String) (k : String) :
    (st.zrem z m).get k = st.get k := rfl

theorem zscore_hset (st : RedisState) (h f : String) (v : Int) (z m : String) :
    (st.hset h f v).zscore z m = st.zscore z m := rfl

theorem zscore_setStr (st : RedisState) (k : String) (v : PyValue) (z m : String) :
    (st.setStr k v).zscore z m = st.zscore z m := rfl

theorem zscore_del (st : RedisState) (k : String) (z m : String) :
    (st.del k).zscore z m = st.zscore z m := rfl

theorem splitMember_sound {s a b : String} (h : splitMember s = some (a, b)) :
    s = a ++ "|" ++ b := by
  simp only [splitMember] at h
  cases hx : splitOnceAux s.data with
  | none => rw [hx] at h; exact absurd h (by simp)
  | some p =>
    rw [hx] at h
    simp at h
    obtain ⟨h1, h2⟩ := h
    apply String.ext
    rw [data_append_sep, ← h1, ← h2]
    exact splitOnceAux_sound hx

/-! ### Branch equations for one sweep step -/

theorem reset_step_malformed (st : RedisState) (dz tp member : String)
    (hsplit : splitMember member = none) :
    reset_step st dz tp member = st.zrem dz member := by
  simp only [reset_step, hsplit]

theorem reset_step_skip (st : RedisState) (dz tp member ns f : String)
    (hsplit : splitMember member = some (ns, f))
    (hscore : st.zscore dz member = none) :
    reset_step st dz tp member = st := by
  simp only [reset_step, hsplit, hscore]

theorem reset_step_no_token (st : RedisState) (dz tp member ns f : String) (score : ℚ)
    (hsplit : splitMember member = some (ns, f))
    (hscore : st.zscore dz member = some score)
    (htok : st.get (tp ++ ns ++ "|" ++ f) = none) :
    reset_step st dz tp member = (st.hset ns f 0).zrem dz member := by
  simp only [reset_step, hsplit, hscore, htok]

theorem reset_step_match (st : RedisState) (dz tp member ns f : String) (score ld : ℚ)
    (token : PyValue)
    (hsplit : splitMember member = some (ns, f))
    (hscore : st.zscore dz member = some score)
    (htok : st.get (tp ++ ns ++ "|" ++ f) = some token)
    (hparse : pyFloat token = some ld)
    (hclose : |ld - score| < 1/1000) :
    reset_step st dz tp member =
      ((st.hset ns f 0).zrem dz member).del (tp ++ ns ++ "|" ++ f) := by
  simp only [reset_step, hsplit, hscore, htok, hparse]
  rw [if_pos hclose]

theorem reset_step_stale (st : RedisState) (dz tp member ns f : String) (score ld : ℚ)
    (token : PyValue)
    (hsplit : splitMember member = some (ns, f))
    (hscore : st.zscore dz member = some score)
    (htok : st.get (tp ++ ns ++ "|" ++ f) = some token)
    (hparse : pyFloat token = some ld)
    (hfar : ¬ |ld - score| < 1/1000) :
    reset_step st dz tp member = st.zrem dz member := by
  simp only [reset_step, hsplit, hscore, htok, hparse]
  rw [if_neg hfar]

theorem reset_step_nonnumeric (st : RedisState) (dz tp member ns f : String) (score : ℚ)
    (token : PyValue)
    (hsplit : splitMember member = some (ns, f))
    (hscore : st.zscore dz member = some score)
    (htok : st.get (tp ++ ns ++ "|" ++ f) = some token)
    (hparse : pyFloat token = none) :
    reset_step st dz tp member = st.zrem dz member := by
  simp only [reset_step, hsplit, hscore, htok, hparse]

/-! ### Concrete states used by witnesses and counterexamples -/

/-- The empty store. -/
def emptyState : RedisState :=
  RedisState.mk (fun _ _ => none) (fun _ => none) (fun _ => [])

/-- A member armed exactly as `alarm_pulse` leaves it: flag 1, token
`str(5.0)`, due-index score 5. -/
def armedState : RedisState :=
  ((emptyState.hset "ns" "f" 1).setStr (TOKEN_PREFIX ++ "ns|f")
    (PyValue.float 5)).zadd DUE_ZSET "ns|f" 5

/-- Like `armedState` but with the token deleted out of band. -/
def noTokenState : RedisState :=
  (emptyState.hset "ns" "f" 1).zadd DUE_ZSET "ns|f" 5

/-- Like `armedState` but with a token that does not parse as a number. -/
def nonNumericState : RedisState :=
  ((emptyState.hset "ns" "f" 1).setStr (TOKEN_PREFIX ++ "ns|f")
    (PyValue.other "oops")).zadd DUE_ZSET "ns|f" 5

/-- Like `armedState` but with a numeric token far from the index score. -/
def staleState : RedisState :=
  ((emptyState.hset "ns" "f" 1).setStr (TOKEN_PREFIX ++ "ns|f")
    (PyValue.float 99)).zadd DUE_ZSET "ns|f" 5

/-! ### The claims -/

/-- C1: for every namespace, field and duration, `alarm_pulse` computes
`due = now + duration_sec` and issues exactly one atomic batch (one
composite transactional update) that sets the flag at (namespace, field)
to 1, sets the token of the member to the string encoding of `due`, and
upserts the due-index entry of the member with score `due`; consequently
an immediate flag read after a successful pulse returns 1. -/
theorem C1_pulse_effects (st : RedisState) (now : ℚ) (ns f : String) (d : ℚ) :
    (alarm_pulse st now ns f d).hget ns f = some 1 ∧
    (alarm_pulse st now ns f d).get (pulse_token_key ns f) =
      some (PyValue.float (now + d)) ∧
    (alarm_pulse st now ns f d).zscore DUE_ZSET (ns ++ "|" ++ f) = some (now + d) ∧
    alarm_pulse st now ns f d =
      ((st.hset ns f 1).setStr (pulse_token_key ns f)
        (PyValue.float (now + d))).zadd DUE_ZSET (ns ++ "|" ++ f) (now + d) := by
  have hcomp : alarm_pulse st now ns f d =
      ((st.hset ns f 1).setStr (pulse_token_key ns f)
        (PyValue.float (now + d))).zadd DUE_ZSET (ns ++ "|" ++ f) (now + d) := rfl
  refine ⟨?_, ?_, ?_, hcomp⟩
  · rw [hcomp, hget_zadd, hget_setStr, hget_hset_self]
  · rw [hcomp, get_zadd, get_setStr_self]
  · rw [hcomp, zscore_zadd_self]

/-- C2: a well-formed candidate member whose re-read due-index score is
present and whose token parses as a number within 0.001 of that score is
fully resolved by one sweep step: flag 0, due-index entry removed, token
deleted. -/
theorem C2_match_resolves (st : RedisState) (dz tp member ns f : String)
    (score ld : ℚ) (token : PyValue)
    (hsplit : splitMember member = some (ns, f))
    (hscore : st.zscore dz member = some score)
    (htok : st.get (tp ++ ns ++ "|" ++ f) = some token)
    (hparse : pyFloat token = some ld)
    (hclose : |ld - score| < 1/1000) :
    (reset_step st dz tp member).hget ns f = some 0 ∧
    (reset_step st dz tp member).zscore dz member = none ∧
    (reset_step st dz tp member).get (tp ++ ns ++ "|" ++ f) = none := by
  have hstep := reset_step_match st dz tp member ns f score ld token
    hsplit hscore htok hparse hclose
  refine ⟨?_, ?_, ?_⟩
  · rw [hstep, hget_del, hget_zrem, hget_hset_self]
  · rw [hstep, zscore_del, zscore_zrem_self]
  · rw [hstep, get_del_self]

/-- C2 witness: the match branch at a concretely armed member. -/
theorem C2_match_resolves_witness :
    splitMember "ns|f" = some ("ns", "f") ∧
    armedState.zscore DUE_ZSET "ns|f" = some 5 ∧
    armedState.get (TOKEN_PREFIX ++ "ns" ++ "|" ++ "f") = some (PyValue.float 5) ∧
    pyFloat (PyValue.float 5) = some 5 ∧
    |(5 : ℚ) - 5| < 1/1000 ∧
    ((reset_step armedState DUE_ZSET TOKEN_PREFIX "ns|f").hget "ns" "f" = some 0 ∧
      (reset_step armedState DUE_ZSET TOKEN_PREFIX "ns|f").zscore DUE_ZSET "ns|f" = none ∧
      (reset_step armedState DUE_ZSET TOKEN_PREFIX "ns|f").get
        (TOKEN_PREFIX ++ "ns" ++ "|" ++ "f") = none) :=
  ⟨by decide, by decide, by decide, rfl, by norm_num,
    C2_match_resolves armedState DUE_ZSET TOKEN_PREFIX "ns|f" "ns" "f" 5 5
      (PyValue.float 5) (by decide) (by decide) (by decide) rfl (by norm_num)⟩

/-- C3: a well-formed candidate member whose re-read due-index score is
present but whose token is absent is resolved by one sweep step as
"already resolved by other means": flag cleared to 0 and due-index entry
removed (the member is not skipped and nothing is raised). -/
theorem C3_no_token_resolves (st : RedisState) (dz tp member ns f : String) (score : ℚ)
    (hsplit : splitMember member = some (ns, f))
    (hscore : st.zscore dz member = some score)
    (htok : st.get (tp ++ ns ++ "|" ++ f) = none) :
    (reset_step st dz tp member).hget ns f = some 0 ∧
    (reset_step st dz tp member).zscore dz member = none := by
  have hstep := reset_step_no_token st dz tp member ns f score hsplit hscore htok
  refine ⟨?_, ?_⟩
  · rw [hstep, hget_zrem, hget_hset_self]
  · rw [hstep, zscore_zrem_self]

/-- C3 witness: the no-token branch at a member whose token was deleted
out of band. -/
theorem C3_no_token_resolves_witness :
    splitMember "ns|f" = some ("ns", "f") ∧
    noTokenState.zscore DUE_ZSET "ns|f" = some 5 ∧
    noTokenState.get (TOKEN_PREFIX ++ "ns" ++ "|" ++ "f") = none ∧
    ((reset_step noTokenState DUE_ZSET TOKEN_PREFIX "ns|f").hget "ns" "f" = some 0 ∧
      (reset_step noTokenState DUE_ZSET TOKEN_PREFIX "ns|f").zscore DUE_ZSET "ns|f" =
        none) :=
  ⟨by decide, by decide, by decide,
    C3_no_token_resolves noTokenState DUE_ZSET TOKEN_PREFIX "ns|f" "ns" "f" 5
      (by decide) (by decide) (by decide)⟩

/-- C4: on the mismatch branch (token present, numeric, and at least
0.001 away from the re-read score) one sweep step removes only the
due-index entry: the whole flag table and the whole string store are
unchanged, other members of the due index keep their scores, and other
sorted sets are untouched. -/
theorem C4_mismatch_frame (st : RedisState) (dz tp member ns f : String)
    (score ld : ℚ) (token : PyValue)
    (hsplit : splitMember member = some (ns, f))
    (hscore : st.zscore dz member = some score)
    (htok : st.get (tp ++ ns ++ "|" ++ f) = some token)
    (hparse : pyFloat token = some ld)
    (hfar : ¬ |ld - score| < 1/1000) :
    reset_step st dz tp member = st.zrem dz member ∧
    (reset_step st dz tp member).hashes = st.hashes ∧
    (reset_step st dz tp member).strings = st.strings ∧
    (reset_step st dz tp member).zscore dz member = none ∧
    (∀ m', m' ≠ member → (reset_step st dz tp member).zscore dz m' = st.zscore dz m') ∧
    (∀ z', z' ≠ dz → (reset_step st dz tp member).zsets z' = st.zsets z') := by
  have hstep := reset_step_stale st dz tp member ns f score ld token
    hsplit hscore htok hparse hfar
  refine ⟨hstep, ?_, ?_, ?_, ?_, ?_⟩
  · rw [hstep, zrem_hashes]
  · rw [hstep, zrem_strings]
  · rw [hstep, zscore_zrem_self]
  · intro m' hm'
    rw [hstep, zscore_zrem_other st hm']
  · intro z' hz'
    rw [hstep, zrem_zsets_other st member hz']

/-- C4 witness: the mismatch branch at a member whose token holds a due
time far from the index score. -/
theorem C4_mismatch_frame_witness :
    splitMember "ns|f" = some ("ns", "f") ∧
    staleState.zscore DUE_ZSET "ns|f" = some 5 ∧
    staleState.get (TOKEN_PREFIX ++ "ns" ++ "|" ++ "f") = some (PyValue.float 99) ∧
    pyFloat (PyValue.float 99) = some 99 ∧
    ¬ |(99 : ℚ) - 5| < 1/1000 ∧
    (reset_step staleState DUE_ZSET TOKEN_PREFIX "ns|f" = staleState.zrem DUE_ZSET "ns|f" ∧
      (reset_step staleState DUE_ZSET TOKEN_PREFIX "ns|f").hashes = staleState.hashes ∧
      (reset_step staleState DUE_ZSET TOKEN_PREFIX "ns|f").strings = staleState.strings ∧
      (reset_step staleState DUE_ZSET TOKEN_PREFIX "ns|f").zscore DUE_ZSET "ns|f" = none ∧
      (∀ m', m' ≠ "ns|f" →
        (reset_step staleState DUE_ZSET TOKEN_PREFIX "ns|f").zscore DUE_ZSET m' =
          staleState.zscore DUE_ZSET m') ∧
      (∀ z', z' ≠ DUE_ZSET →
        (reset_step staleState DUE_ZSET TOKEN_PREFIX "ns|f").zsets z' =
          staleState.zsets z')) :=
  ⟨by decide, by decide, by decide, rfl, by norm_num,
    C4_mismatch_frame staleState DUE_ZSET TOKEN_PREFIX "ns|f" "ns" "f" 5 99
      (PyValue.float 99) (by decide) (by decide) (by decide) rfl (by norm_num)⟩

/-- C10: member encoding round-trips: for every namespace free of the
separator and every field (even one containing the separator), the
worker's split of the member written by `alarm_pulse` recovers exactly
that namespace and field, and the token key the worker reconstructs from
the split is exactly the token key `alarm_pulse` wrote. -/
theorem C10_member_roundtrip (ns f : String) (h : '|' ∉ ns.data) :
    splitMember (ns ++ "|" ++ f) = some (ns, f) ∧
    TOKEN_PREFIX ++ ns ++ "|" ++ f = pulse_token_key ns f :=
  ⟨splitMember_encode f h, rfl⟩

/-- C10 witness: a realistic namespace and a field that itself contains
the separator. -/
theorem C10_member_roundtrip_witness :
    '|' ∉ ("health:svc" : String).data ∧
    (splitMember ("health:svc" ++ "|" ++ "sftp|job1") = some ("health:svc", "sftp|job1") ∧
      TOKEN_PREFIX ++ "health:svc" ++ "|" ++ "sftp|job1" =
        pulse_token_key "health:svc" "sftp|job1") :=
  ⟨by decide, C10_member_roundtrip "health:svc" "sftp|job1" (by decide)⟩

/-- C5 counterexample: a well-formed candidate with a present score and a
present but non-numeric token. The claim says the sweep takes the
no-token resolution path and clears the flag to 0; the code falls into
the else branch of the tolerance test and leaves the flag at 1. -/
theorem C5_counterexample :
    splitMember "ns|f" = some ("ns", "f") ∧
    nonNumericState.zscore DUE_ZSET "ns|f" = some 5 ∧
    nonNumericState.get (TOKEN_PREFIX ++ "ns" ++ "|" ++ "f") =
      some (PyValue.other "oops") ∧
    pyFloat (PyValue.other "oops") = none ∧
    (reset_step nonNumericState DUE_ZSET TOKEN_PREFIX "ns|f").hget "ns" "f" = some 1 ∧
    (reset_step nonNumericState DUE_ZSET TOKEN_PREFIX "ns|f").hget "ns" "f" ≠ some 0 ∧
    (reset_step nonNumericState DUE_ZSET TOKEN_PREFIX "ns|f").get
      (TOKEN_PREFIX ++ "ns" ++ "|" ++ "f") = some (PyValue.other "oops") := by
  refine ⟨by decide, by decide, by decide, rfl, ?_, ?_, ?_⟩ <;> decide

/-- C5 amended: a candidate member whose token is present but does not
parse as a number is treated like the mismatch branch, not the no-token
branch: one sweep step removes only the due-index entry, leaving the
whole flag table and the whole string store (so the flag and the token)
unchanged, and never raises. -/
theorem C5_nonnumeric_stale (st : RedisState) (dz tp member ns f : String) (score : ℚ)
    (token : PyValue)
    (hsplit : splitMember member = some (ns, f))
    (hscore : st.zscore dz member = some score)
    (htok : st.get (tp ++ ns ++ "|" ++ f) = some token)
    (hparse : pyFloat token = none) :
    reset_step st dz tp member = st.zrem dz member ∧
    (reset_step st dz tp member).hashes = st.hashes ∧
    (reset_step st dz tp member).strings = st.strings ∧
    (reset_step st dz tp member).zscore dz member = none := by
  have hstep := reset_step_nonnumeric st dz tp member ns f score token
    hsplit hscore htok hparse
  refine ⟨hstep, ?_, ?_, ?_⟩
  · rw [hstep, zrem_hashes]
  · rw [hstep, zrem_strings]
  · rw [hstep, zscore_zrem_self]

/-- C5 witness: the non-numeric-token branch at a concrete member. -/
theorem C5_nonnumeric_stale_witness :
    splitMember "ns|f" = some ("ns", "f") ∧
    nonNumericState.zscore DUE_ZSET "ns|f" = some 5 ∧
    nonNumericState.get (TOKEN_PREFIX ++ "ns" ++ "|" ++ "f") =
      some (PyValue.other "oops") ∧
    pyFloat (PyValue.other "oops") = none ∧
    (reset_step nonNumericState DUE_ZSET TOKEN_PREFIX "ns|f" =
      nonNumericState.zrem DUE_ZSET "ns|f" ∧
      (reset_step nonNumericState DUE_ZSET TOKEN_PREFIX "ns|f").hashes =
        nonNumericState.hashes ∧
      (reset_step nonNumericState DUE_ZSET TOKEN_PREFIX "ns|f").strings =
        nonNumericState.strings ∧
      (reset_step nonNumericState DUE_ZSET TOKEN_PREFIX "ns|f").zscore DUE_ZSET "ns|f" =
        none) :=
  ⟨by decide, by decide, by decide, rfl,
    C5_nonnumeric_stale nonNumericState DUE_ZSET TOKEN_PREFIX "ns|f" "ns" "f" 5
      (PyValue.other "oops") (by decide) (by decide) (by decide) rfl⟩

/-- C6: a candidate member with no separator is removed from the due
index by one sweep step without raising and without touching any flag or
token (hash table and string store unchanged), and the sweep continues
with the remaining candidates of the same batch. -/
theorem C6_malformed_dropped (st : RedisState) (dz tp member : String)
    (h : '|' ∉ member.data) (rest : List String) :
    reset_step st dz tp member = st.zrem dz member ∧
    (reset_step st dz tp member).hashes = st.hashes ∧
    (reset_step st dz tp member).strings = st.strings ∧
    (reset_step st dz tp member).zscore dz member = none ∧
    reset_sweep st dz tp (member :: rest) =
      reset_sweep (st.zrem dz member) dz tp rest := by
  have hstep := reset_step_malformed st dz tp member (splitMember_no_sep h)
  refine ⟨hstep, ?_, ?_, ?_, ?_⟩
  · rw [hstep, zrem_hashes]
  · rw [hstep, zrem_strings]
  · rw [hstep, zscore_zrem_self]
  · show reset_sweep (reset_step st dz tp member) dz tp rest = _
    rw [hstep]

/-- C6 witness: a malformed member swept ahead of a further candidate. -/
theorem C6_malformed_dropped_witness :
    '|' ∉ ("badmember" : String).data ∧
    (reset_step armedState DUE_ZSET TOKEN_PREFIX "badmember" =
      armedState.zrem DUE_ZSET "badmember" ∧
      (reset_step armedState DUE_ZSET TOKEN_PREFIX "badmember").hashes =
        armedState.hashes ∧
      (reset_step armedState DUE_ZSET TOKEN_PREFIX "badmember").strings =
        armedState.strings ∧
      (reset_step armedState DUE_ZSET TOKEN_PREFIX "badmember").zscore DUE_ZSET
        "badmember" = none ∧
      reset_sweep armedState DUE_ZSET TOKEN_PREFIX ("badmember" :: ["ns|f"]) =
        reset_sweep (armedState.zrem DUE_ZSET "badmember") DUE_ZSET TOKEN_PREFIX
          ["ns|f"]) :=
  ⟨by decide,
    C6_malformed_dropped armedState DUE_ZSET TOKEN_PREFIX "badmember"
      (by decide) ["ns|f"]⟩

/-! ### Pulse sequences (C7) -/

theorem entryCount_zadd_self (st : RedisState) (z m : String) (s : ℚ) :
    entryCount (st.zadd z m s) z m = 1 := by
  simp only [entryCount, RedisState.zadd, eq_self_iff_true, if_true]
  rw [List.filter_cons]
  have hd : (decide ((m, s).1 = m)) = true := by simp
  rw [hd, if_pos rfl]
  have hnil : List.filter (fun p => decide (p.1 = m))
      (List.filter (fun p => decide (p.1 ≠ m)) (st.zsets z)) = [] := by
    rw [List.filter_eq_nil_iff]
    intro p hp
    rcases List.mem_filter.mp hp with ⟨-, hpne⟩
    simpa using of_decide_eq_true hpne
  rw [hnil]
  rfl

theorem pulse_entryCount (st : RedisState) (t : ℚ) (ns f : String) (d : ℚ) :
    entryCount (alarm_pulse st t ns f d) DUE_ZSET (ns ++ "|" ++ f) = 1 :=
  entryCount_zadd_self _ _ _ _

theorem pulse_zscore (st : RedisState) (t : ℚ) (ns f : String) (d : ℚ) :
    (alarm_pulse st t ns f d).zscore DUE_ZSET (ns ++ "|" ++ f) = some (t + d) :=
  zscore_zadd_self _ _ _ _

theorem pulseSeq_cons_spec (st : RedisState) (ns f : String) (nd : ℚ × ℚ)
    (rest : List (ℚ × ℚ)) :
    entryCount (pulseSeq st ns f (nd :: rest)) DUE_ZSET (ns ++ "|" ++ f) = 1 ∧
    ∃ l, (nd :: rest).getLast? = some l ∧
      (pulseSeq st ns f (nd :: rest)).zscore DUE_ZSET (ns ++ "|" ++ f) =
        some (l.1 + l.2) := by
  induction rest generalizing st nd with
  | nil =>
    refine ⟨pulse_entryCount st nd.1 ns f nd.2, nd, rfl,
      pulse_zscore st nd.1 ns f nd.2⟩
  | cons nd2 rest2 ih =>
    obtain ⟨hc, l, hl, hs⟩ := ih (alarm_pulse st nd.1 ns f nd.2) nd2
    exact ⟨hc, l, by rw [List.getLast?_cons_cons]; exact hl, hs⟩

/-- C7 counterexample: the claim says repeated pulses only ever push the
due time forward, but a second pulse with a shorter duration moves it
backward: a pulse at time 0 with duration 22 schedules due 22, and a
following pulse at time 1 with duration 1 reschedules due 2 < 22. -/
theorem C7_counterexample :
    (pulseSeq emptyState "ns" "f" [(0, 22)]).zscore DUE_ZSET "ns|f" = some 22 ∧
    (pulseSeq emptyState "ns" "f" [(0, 22), (1, 1)]).zscore DUE_ZSET "ns|f" = some 2 ∧
    (2 : ℚ) < 22 := by
  have hm : ("ns|f" : String) = "ns" ++ "|" ++ "f" := by decide
  refine ⟨?_, ?_, by norm_num⟩
  · rw [hm, show pulseSeq emptyState "ns" "f" [(0, 22)] =
      alarm_pulse emptyState 0 "ns" "f" 22 from rfl, pulse_zscore]
    norm_num
  · rw [hm, show pulseSeq emptyState "ns" "f" [(0, 22), (1, 1)] =
      alarm_pulse (alarm_pulse emptyState 0 "ns" "f" 22) 1 "ns" "f" 1 from rfl,
      pulse_zscore]
    norm_num

/-- C7 amended: for every member and every non-empty sequence of pulses
on it, the due index ends with exactly one entry for the member and its
score equals the due time of the most recent pulse (its `now` plus its
`duration_sec`); each pulse replaces the due time rather than
accumulating entries, but the new due time need not be later than the
old one when a shorter duration is used. -/
theorem C7_pulse_seq (st : RedisState) (ns f : String) (ps : List (ℚ × ℚ))
    (hne : ps ≠ []) :
    entryCount (pulseSeq st ns f ps) DUE_ZSET (ns ++ "|" ++ f) = 1 ∧
    ∃ l, ps.getLast? = some l ∧
      (pulseSeq st ns f ps).zscore DUE_ZSET (ns ++ "|" ++ f) = some (l.1 + l.2) := by
  cases ps with
  | nil => exact absurd rfl hne
  | cons nd rest => exact pulseSeq_cons_spec st ns f nd rest

/-- C7 witness: two rapid pulses on the same member leave one entry with
the second due time. -/
theorem C7_pulse_seq_witness :
    ([((0 : ℚ), (22 : ℚ)), (1, 22)] : List (ℚ × ℚ)) ≠ [] ∧
    (entryCount (pulseSeq emptyState "ns" "f" [(0, 22), (1, 22)]) DUE_ZSET
        ("ns" ++ "|" ++ "f") = 1 ∧
      ∃ l, ([((0 : ℚ), (22 : ℚ)), (1, 22)] : List (ℚ × ℚ)).getLast? = some l ∧
        (pulseSeq emptyState "ns" "f" [(0, 22), (1, 22)]).zscore DUE_ZSET
          ("ns" ++ "|" ++ "f") = some (l.1 + l.2)) :=
  ⟨by decide, C7_pulse_seq emptyState "ns" "f" [(0, 22), (1, 22)] (by decide)⟩

/-! ### The token invariant (C8) -/

theorem token_key_assoc (a b : String) :
    pulse_token_key a b = TOKEN_PREFIX ++ (a ++ "|" ++ b) := by
  simp [pulse_token_key, String.append_assoc]

theorem tp_append_ne {m m' : String} (hne : m' ≠ m) :
    TOKEN_PREFIX ++ m' ≠ TOKEN_PREFIX ++ m :=
  fun h => hne (string_append_cancel_left h)

theorem tokenInvariant_zrem (st : RedisState) (h : TokenInvariant st) (mem : String) :
    TokenInvariant (st.zrem DUE_ZSET mem) := by
  intro m s hms
  by_cases hm : m = mem
  · subst hm
    rw [zscore_zrem_self] at hms
    exact absurd hms (by simp)
  · rw [zscore_zrem_other st hm] at hms
    rw [get_zrem]
    exact h m s hms

theorem tokenInvariant_hset (st : RedisState) (h : TokenInvariant st)
    (a b : String) (v : Int) : TokenInvariant (st.hset a b v) := by
  intro m s hms
  rw [zscore_hset] at hms
  rw [get_hset]
  exact h m s hms

theorem tokenInvariant_pulse (st : RedisState) (h : TokenInvariant st) (now : ℚ)
    (ns f : String) (d : ℚ) : TokenInvariant (alarm_pulse st now ns f d) := by
  have hcomp : alarm_pulse st now ns f d =
      ((st.hset ns f 1).setStr (pulse_token_key ns f)
        (PyValue.float (now + d))).zadd DUE_ZSET (ns ++ "|" ++ f) (now + d) := rfl
  intro m s hms
  rw [hcomp] at hms ⊢
  by_cases hm : m = ns ++ "|" ++ f
  · subst hm
    rw [zscore_zadd_self] at hms
    have hs : now + d = s := by injection hms
    rw [get_zadd, ← token_key_assoc ns f, get_setStr_self, hs]
  · rw [zscore_zadd_other _ _ hm, zscore_setStr, zscore_hset] at hms
    have hkne : TOKEN_PREFIX ++ m ≠ pulse_token_key ns f := by
      rw [token_key_assoc]
      exact tp_append_ne hm
    rw [get_zadd, get_setStr_other _ _ hkne, get_hset]
    exact h m s hms

theorem tokenInvariant_reset_step (st : RedisState) (h : TokenInvariant st)
    (member : String) :
    TokenInvariant (reset_step st DUE_ZSET TOKEN_PREFIX member) := by
  cases hsplit : splitMember member with
  | none =>
    rw [reset_step_malformed st _ _ _ hsplit]
    exact tokenInvariant_zrem st h member
  | some p =>
    obtain ⟨ns, f⟩ := p
    have hmem : member = ns ++ "|" ++ f := splitMember_sound hsplit
    cases hscore : st.zscore DUE_ZSET member with
    | none =>
      rw [reset_step_skip st _ _ member ns f hsplit hscore]
      exact h
    | some score =>
      cases htok : st.get (TOKEN_PREFIX ++ ns ++ "|" ++ f) with
      | none =>
        rw [reset_step_no_token st _ _ member ns f score hsplit hscore htok]
        exact tokenInvariant_zrem _ (tokenInvariant_hset st h ns f 0) member
      | some token =>
        cases hparse : pyFloat token with
        | none =>
          rw [reset_step_nonnumeric st _ _ member ns f score token
            hsplit hscore htok hparse]
          exact tokenInvariant_zrem st h member
        | some ld =>
          by_cases hclose : |ld - score| < 1/1000
          · rw [reset_step_match st _ _ member ns f score ld token
              hsplit hscore htok hparse hclose]
            intro m s hms
            have hkey : TOKEN_PREFIX ++ ns ++ "|" ++ f = TOKEN_PREFIX ++ member := by
              rw [hmem]
              simp [String.append_assoc]
            by_cases hm : m = member
            · subst hm
              rw [zscore_del, zscore_zrem_self] at hms
              exact absurd hms (by simp)
            · rw [zscore_del, zscore_zrem_other _ hm, zscore_hset] at hms
              have hkne : TOKEN_PREFIX ++ m ≠ TOKEN_PREFIX ++ ns ++ "|" ++ f := by
                rw [hkey]
                exact tp_append_ne hm
              rw [get_del_other _ hkne, get_zrem, get_hset]
              exact h m s hms
          · rw [reset_step_stale st _ _ member ns f score ld token
              hsplit hscore htok hparse hclose]
            exact tokenInvariant_zrem st h member

/-- C8: the intended invariant — whenever a due-index entry exists for a
member, a token exists for that member encoding the same due time — is
preserved from any state satisfying it both by every pulse and by every
sequentially executed sweep step of the reset worker (run with the
constants the pulse writer uses). -/
theorem C8_invariant_preserved (st : RedisState) (hInv : TokenInvariant st)
    (now d : ℚ) (ns f member : String) :
    TokenInvariant (alarm_pulse st now ns f d) ∧
    TokenInvariant (reset_step st DUE_ZSET TOKEN_PREFIX member) :=
  ⟨tokenInvariant_pulse st hInv now ns f d, tokenInvariant_reset_step st hInv member⟩

/-- C8 witness: the empty store satisfies the invariant, and one pulse
plus one sweep step from it preserve it. -/
theorem C8_invariant_preserved_witness :
    TokenInvariant emptyState ∧
    (TokenInvariant (alarm_pulse emptyState 0 "ns" "f" 22) ∧
      TokenInvariant (reset_step emptyState DUE_ZSET TOKEN_PREFIX "ns|f")) :=
  ⟨fun m s hms => absurd hms (by simp [emptyState, RedisState.zscore]),
    C8_invariant_preserved emptyState
      (fun m s hms => absurd hms (by simp [emptyState, RedisState.zscore]))
      0 22 "ns" "f" "ns|f"⟩

/-! ### The sweep loop shape (C9) -/

theorem mem_insertSorted {x p : String × ℚ} {l : List (String × ℚ)} :
    x ∈ insertSorted p l ↔ x = p ∨ x ∈ l := by
  induction l with
  | nil => simp [insertSorted]
  | cons q rest ih =>
    cases h : scoreLe p q with
    | true => simp [insertSorted, h, List.mem_cons]
    | false =>
      simp [insertSorted, h, List.mem_cons, ih]
      tauto

theorem mem_sortByScore {x : String × ℚ} {l : List (String × ℚ)} :
    x ∈ sortByScore l ↔ x ∈ l := by
  induction l with
  | nil => simp [sortByScore]
  | cons p rest ih =>
    simp only [sortByScore, mem_insertSorted, ih, List.mem_cons]

/-- A due index holding one member whose deadline has passed. -/
def dueState : RedisState := emptyState.zadd DUE_ZSET "ns|f" 5

/-- C9 counterexample: the claim says each index query is separated from
the next by a poll_interval sleep, but an iteration whose query returns a
non-empty batch sweeps it and loops back to the next query with no sleep
at all (the returned sleep duration is none). -/
theorem C9_counterexample :
    dueState.zrangebyscore DUE_ZSET 10 default_batch ≠ [] ∧
    (reset_iter dueState 10 DUE_ZSET TOKEN_PREFIX default_poll_interval
      default_batch).2 = none := by
  constructor
  · decide
  · decide

/-- C9 amended: every iteration of the reset loop queries the due index
for up to `batch` members (default 200) with score at most now; it sleeps
`poll_interval` (default 0.2s) before the next query only when that query
returns no members, and otherwise sweeps the batch and proceeds to the
next query immediately, with no sleep in between. -/
theorem C9_loop_structure (st : RedisState) (now : ℚ) (dz tp : String) (pi : ℚ)
    (b : ℕ) :
    (st.zrangebyscore dz now b).length ≤ b ∧
    (∀ m ∈ st.zrangebyscore dz now b, ∃ s, (m, s) ∈ st.zsets dz ∧ s ≤ now) ∧
    (reset_iter st now dz tp pi b =
      if (st.zrangebyscore dz now b).isEmpty then (st, some pi)
      else (reset_sweep st dz tp (st.zrangebyscore dz now b), none)) ∧
    default_poll_interval = 1/5 ∧
    default_batch = 200 := by
  refine ⟨?_, ?_, rfl, by norm_num [default_poll_interval], rfl⟩
  · simp only [RedisState.zrangebyscore, List.length_map]
    exact List.length_take_le b _
  · intro m hm
    simp only [RedisState.zrangebyscore, List.mem_map] at hm
    obtain ⟨p, hp, rfl⟩ := hm
    rcases List.mem_filter.mp (List.mem_of_mem_take hp) with ⟨hsort, hle⟩
    exact ⟨p.2, mem_sortByScore.mp hsort, of_decide_eq_true hle⟩

end AlarmPulse
